import Mathlib

/-!
# git-download: registry, archive fetcher, archive installer and sync loop

A shallow embedding of the Go sources

* `internal/metadata/types.go` (the registry and its operations),
* `internal/sync/sync.go` (`DownloadZIP`, `ExtractZIP`),
* `internal/sync/service.go` (`Service.SyncRepository`, `Service.SyncAll`, `Service.AddRepository`),
* `cmd/git-download/main.go` (`initCmd`, `syncCmd`, `syncRepository`),

followed by theorems about them.

Conventions of the embedding.

* A Go `string` is a Lean `String`.  The only string operations the sources use are
  concatenation, equality, prefix trimming and splitting on the one-byte separator `/`,
  which agree on bytes and on characters.
* A `time.Time` is an `Int` (an instant counted from the zero time); `0` is `time.Time{}`.
* A slice is a `List`; a method with a pointer receiver returns the updated value.
* Everything the code asks of the outside world (temporary files, the network, the
  filesystem, the clock) is an explicit outcome parameter, and every function that talks to
  the outside world returns the list of operations it issued together with its result.
-/

set_option autoImplicit false

namespace GitDownload

deriving instance DecidableEq for Except

/-! ## Data model (`internal/metadata/types.go`) -/

/-- An instant; `0` is the zero value `time.Time{}` ("never synced"). -/
abbrev Time := Int

/-- The struct `RepositoryMetadata`: a single repository's sync information. -/
structure RepositoryMetadata where
  Name : String
  URL : String
  Branch : String
  RefType : String
  LastSync : Time
  Destination : String
  deriving DecidableEq, Repr

/-- The struct `SyncMetadata`: the root metadata structure. -/
structure SyncMetadata where
  Repositories : List RepositoryMetadata
  deriving DecidableEq, Repr

namespace SyncMetadata

/-- The loop of `AddRepository` over the slice: the first entry whose name is `repo.Name` is
overwritten in place and the loop returns; when the loop runs out, `repo` is appended. -/
def addLoop (repo : RepositoryMetadata) : List RepositoryMetadata → List RepositoryMetadata
  | [] => [repo]
  | r :: rs => if r.Name = repo.Name then repo :: rs else r :: addLoop repo rs

/-- The method `(sm *SyncMetadata) AddRepository(repo)`. -/
def AddRepository (sm : SyncMetadata) (repo : RepositoryMetadata) : SyncMetadata :=
  ⟨addLoop repo sm.Repositories⟩

/-- The loop of `RemoveRepository`: at the first entry whose name is `name` the slice becomes
`append(Repositories[:i], Repositories[i+1:]...)` and the result is `true`; when the loop runs
out the slice is untouched and the result is `false`. -/
def removeLoop (name : String) : List RepositoryMetadata → List RepositoryMetadata × Bool
  | [] => ([], false)
  | r :: rs =>
    if r.Name = name then (rs, true)
    else ((r :: (removeLoop name rs).1), (removeLoop name rs).2)

/-- The method `(sm *SyncMetadata) RemoveRepository(name) bool`: the updated registry and the
returned flag. -/
def RemoveRepository (sm : SyncMetadata) (name : String) : SyncMetadata × Bool :=
  (⟨(removeLoop name sm.Repositories).1⟩, (removeLoop name sm.Repositories).2)

/-- The loop of `GetRepository`: the first entry whose name is `name`. -/
def getLoop (name : String) : List RepositoryMetadata → Option RepositoryMetadata
  | [] => none
  | r :: rs => if r.Name = name then some r else getLoop name rs

/-- The method `(sm *SyncMetadata) GetRepository(name) (*RepositoryMetadata, bool)`: `some r`
stands for `(&r, true)` (a pointer to a copy of the entry), `none` for `(nil, false)`. -/
def GetRepository (sm : SyncMetadata) (name : String) : Option RepositoryMetadata :=
  getLoop name sm.Repositories

end SyncMetadata

/-- Index of the first entry of the slice whose name is `name` (the length when there is
none). -/
def firstIndex (name : String) (rs : List RepositoryMetadata) : Nat :=
  rs.findIdx (fun r => decide (r.Name = name))

/-- Some entry of the registry carries the name. -/
def hasName (sm : SyncMetadata) (name : String) : Prop :=
  ∃ r ∈ sm.Repositories, r.Name = name

/-! ## Strings and paths (the Go library functions the sources call) -/

/-- The pieces of a sequence of characters between the occurrences of a one-character
separator; there is always at least one piece. -/
def splitChars (sep : Char) : List Char → List (List Char)
  | [] => [[]]
  | c :: cs =>
    if c = sep then [] :: splitChars sep cs
    else match splitChars sep cs with
      | [] => [[c]]
      | h :: t => (c :: h) :: t

/-- Go `strings.Split(s, sep)` for a separator of one byte. -/
def Split (s : String) (sep : Char) : List String :=
  (splitChars sep s.data).map String.mk

/-- Go `strings.HasPrefix(s, p)`. -/
def HasPrefix (s p : String) : Bool := p.data.isPrefixOf s.data

/-- Go `strings.TrimPrefix(s, p)`: `s` without the leading `p` when it has it, else `s`. -/
def TrimPrefix (s p : String) : String :=
  if HasPrefix s p then ⟨s.data.drop p.data.length⟩ else s

/-- Expansion of the `%s` verbs of a format by the string arguments, in order. -/
def sprintfChars : List Char → List String → List Char
  | [], _ => []
  | '%' :: 's' :: rest, a :: args => a.data ++ sprintfChars rest args
  | '%' :: 's' :: rest, [] => "%!s(MISSING)".data ++ sprintfChars rest []
  | c :: rest, args => c :: sprintfChars rest args

/-- Go `fmt.Sprintf(format, args...)` for formats whose only verb is `%s`. -/
def Sprintf (format : String) (args : List String) : String :=
  ⟨sprintfChars format.data args⟩

/-- One element of a path met by `filepath.Clean`, on the stack of elements kept so far (top
first): empty elements and `.` are dropped; `..` removes the element before it, is dropped at
the root, and is kept at the start of a relative path; any other element is kept. -/
def cleanStep (rooted : Bool) (stack : List (List Char)) (seg : List Char) : List (List Char) :=
  if seg = [] ∨ seg = ['.'] then stack
  else if seg = ['.', '.'] then
    match stack with
    | [] => if rooted then [] else [seg]
    | top :: below => if top = ['.', '.'] then seg :: stack else below
  else seg :: stack

/-- Path elements written with one `/` between neighbours. -/
def joinSegs : List (List Char) → List Char
  | [] => []
  | [s] => s
  | s :: t => s ++ '/' :: joinSegs t

/-- Go `filepath.Clean(path)` on Unix: the shortest path equivalent to `path` by purely
lexical processing; the empty path and a relative path that cleans to nothing give `.`. -/
def Clean (path : String) : String :=
  if path = "" then "."
  else
    let rooted := path.data.head? = some '/'
    let out := ((splitChars '/' path.data).foldl (cleanStep rooted) []).reverse
    if rooted then ⟨'/' :: joinSegs out⟩
    else if out = [] then "."
    else ⟨joinSegs out⟩

/-- Go `filepath.Join(a, b)` on Unix: the two elements joined by `/` and cleaned; empty
elements are ignored. -/
def Join (a b : String) : String :=
  if a ≠ "" then Clean (a ++ "/" ++ b)
  else if b ≠ "" then Clean b
  else ""

/-- Go `filepath.Dir(path)` on Unix: `Clean` of everything up to and including the last `/`. -/
def Dir (path : String) : String :=
  Clean ⟨(path.data.reverse.dropWhile (fun c => c ≠ '/')).reverse⟩

/-- Go `filepath.Base(path)` on Unix: the last element of the path, trailing slashes removed
first; `.` for the empty path and `/` for a path of slashes only. -/
def Base (path : String) : String :=
  if path = "" then "."
  else
    let stripped := (path.data.reverse.dropWhile (fun c => c = '/')).reverse
    let last := (stripped.reverse.takeWhile (fun c => c ≠ '/')).reverse
    if last = [] then "/" else ⟨last⟩

/-- The cleaned target lies in the tree of the destination: it is the cleaned destination
itself or continues it after a `/`; under the root that is every rooted path, and under the
current directory every relative path that does not start with a `..` element. -/
def isWithin (destination target : String) : Bool :=
  if Clean destination = "/" then HasPrefix target "/"
  else if Clean destination = "." then
    !(HasPrefix target "/") && !(decide (target = "..")) && !(HasPrefix target "../")
  else decide (target = Clean destination) || HasPrefix target (Clean destination ++ "/")

/-! ## Persistence (`internal/metadata/types.go`, `LoadMetadata` and `SaveMetadata`) -/

/-- The two functions of `encoding/json` the registry is persisted with, at the type
`SyncMetadata`: `json.MarshalIndent(sm, "", "  ")` and `json.Unmarshal(data, &metadata)`. -/
structure Codec where
  MarshalIndent : SyncMetadata → Except String String
  Unmarshal : String → Except String SyncMetadata

/-- The outcome of `os.ReadFile`: the contents, an error for which `os.IsNotExist` holds, or
another error. -/
inductive ReadResult where
  | data (contents : String)
  | notExist
  | failed (err : String)
  deriving DecidableEq, Repr

/-- The files of a disk by name, and the outcomes of the calls that change it:
`os.MkdirAll(dir, 0755)` and `os.WriteFile(filename, data, 0644)`. -/
structure Disk where
  files : String → ReadResult
  mkdirAll : String → Except String Unit
  writeFile : String → String → Except String Unit

/-- The function `LoadMetadata(filename)`; a file that does not exist gives the empty
registry. -/
def LoadMetadata (c : Codec) (d : Disk) (filename : String) : Except String SyncMetadata :=
  match d.files filename with
  | .notExist => .ok ⟨[]⟩
  | .failed err => .error err
  | .data contents => c.Unmarshal contents

/-- The method `(sm *SyncMetadata) SaveMetadata(filename)`: the disk afterwards and the
returned error; a successful `os.WriteFile` replaces the contents of the file. -/
def SaveMetadata (c : Codec) (d : Disk) (sm : SyncMetadata) (filename : String) :
    Disk × Except String Unit :=
  match c.MarshalIndent sm with
  | .error err => (d, .error err)
  | .ok data =>
    match d.mkdirAll (Dir filename) with
    | .error err => (d, .error err)
    | .ok _ =>
      match d.writeFile filename data with
      | .error err => (d, .error err)
      | .ok _ =>
        ({ d with files := fun f => if f = filename then .data data else d.files f }, .ok ())

/-! ## Archive fetcher (`internal/sync/sync.go`, `DownloadZIP`) -/

/-- What `DownloadZIP` reads of an `*http.Response`. -/
structure Response where
  StatusCode : Nat
  Body : String
  deriving DecidableEq, Repr

/-- The temporary `*os.File` that `DownloadZIP` returns: its name and what was copied into
it. -/
structure TempFile where
  Name : String
  Content : String
  deriving DecidableEq, Repr

/-- Outcomes of the calls `DownloadZIP` makes: `os.CreateTemp` (the new file's name),
`http.Get` (by address) and `io.Copy` of the body into the temporary file. -/
structure NetWorld where
  createTemp : Except String String
  httpGet : String → Except String Response
  copy : String → Except String Unit

/-- The calls `DownloadZIP` issues. -/
inductive NetOp where
  | createTemp
  | httpGet (address : String)
  | copy (tmpName : String) (body : String)
  | remove (tmpName : String)
  deriving DecidableEq, Repr

/-- The local `zipURL` of `DownloadZIP`: the ZIP URL constructed from the ref type. -/
def zipURL (url ref refType : String) : String :=
  if refType = "tag" then Sprintf "%s/archive/refs/tags/%s.zip" [url, ref]
  else Sprintf "%s/archive/refs/heads/%s.zip" [url, ref]

/-- The function `DownloadZIP(url, ref, refType)`: the calls issued, in order, and the result. -/
def DownloadZIP (url ref refType : String) (w : NetWorld) : List NetOp × Except String TempFile :=
  let zipURL := zipURL url ref refType
  match w.createTemp with
  | .error e => ([.createTemp], .error ("failed to create temp file: " ++ e))
  | .ok tmp =>
    match w.httpGet zipURL with
    | .error e =>
      ([.createTemp, .httpGet zipURL, .remove tmp], .error ("failed to download ZIP: " ++ e))
    | .ok resp =>
      if resp.StatusCode ≠ 200 then
        ([.createTemp, .httpGet zipURL, .remove tmp],
          .error ("failed to download ZIP: HTTP " ++ toString resp.StatusCode))
      else
        match w.copy resp.Body with
        | .error e =>
          ([.createTemp, .httpGet zipURL, .copy tmp resp.Body, .remove tmp],
            .error ("failed to save ZIP: " ++ e))
        | .ok _ => ([.createTemp, .httpGet zipURL, .copy tmp resp.Body], .ok ⟨tmp, resp.Body⟩)

/-- The addresses among the calls issued. -/
def requested : List NetOp → List String
  | [] => []
  | .httpGet a :: ops => a :: requested ops
  | _ :: ops => requested ops

/-! ## Archive installer (`internal/sync/sync.go`, `ExtractZIP`) -/

/-- What `ExtractZIP` reads of a `*zip.File`: its name, `FileInfo().IsDir()`, `Mode()` and
its payload. -/
structure File where
  Name : String
  IsDir : Bool
  Mode : Nat
  Data : String
  deriving DecidableEq, Repr

/-- The filesystem calls of the extraction loop. -/
inductive FsOp where
  | mkdirAll (path : String) (perm : Nat)
  | openFile (path : String) (perm : Nat)
  | openMember (name : String)
  | copy (path : String) (data : String)
  deriving DecidableEq, Repr

/-- One call of the extraction loop: the position of the entry in `reader.File`, the relative
path computed for it, and the call. -/
structure Step where
  index : Nat
  relPath : String
  op : FsOp
  deriving DecidableEq, Repr

/-- Outcomes of the calls `ExtractZIP` makes: `zip.OpenReader` (the entries of the archive),
`os.MkdirAll(destination, 0755)`, and each call of the loop, by entry position and call. -/
structure FsWorld where
  openReader : TempFile → Except String (List File)
  mkdirDestination : String → Except String Unit
  run : Nat → FsOp → Except String Unit

/-- The root directory name `ExtractZIP` finds: `strings.Split(reader.File[0].Name, "/")[0]`,
and the empty string for an archive without entries. -/
def rootDirOf : List File → String
  | [] => ""
  | f :: _ => (Split f.Name '/').headD ""

/-- The relative path of an entry: `strings.TrimPrefix(file.Name, rootDir+"/")`. -/
def relPathOf (rootDir : String) (file : File) : String :=
  TrimPrefix file.Name (rootDir ++ "/")

/-- The loop `for _, file := range reader.File` of `ExtractZIP`, from the entry at position
`i`: the calls issued and the result. -/
def extractLoop (destination rootDir : String) (w : FsWorld) :
    Nat → List File → List Step × Except String Unit
  | _, [] => ([], .ok ())
  | i, file :: rest =>
    let relPath := relPathOf rootDir file
    if relPath = "" then extractLoop destination rootDir w (i + 1) rest
    else
      let targetPath := Join destination relPath
      if file.IsDir then
        let r := extractLoop destination rootDir w (i + 1) rest
        (⟨i, relPath, .mkdirAll targetPath file.Mode⟩ :: r.1, r.2)
      else
        let s1 : Step := ⟨i, relPath, .mkdirAll (Dir targetPath) 0o755⟩
        let s2 : Step := ⟨i, relPath, .openFile targetPath file.Mode⟩
        let s3 : Step := ⟨i, relPath, .openMember file.Name⟩
        let s4 : Step := ⟨i, relPath, .copy targetPath file.Data⟩
        match w.run i s1.op with
        | .error e => ([s1], .error ("failed to create directory: " ++ e))
        | .ok _ =>
          match w.run i s2.op with
          | .error e => ([s1, s2], .error ("failed to create file: " ++ e))
          | .ok _ =>
            match w.run i s3.op with
            | .error e => ([s1, s2, s3], .error ("failed to open file in ZIP: " ++ e))
            | .ok _ =>
              match w.run i s4.op with
              | .error e => ([s1, s2, s3, s4], .error ("failed to extract file: " ++ e))
              | .ok _ =>
                let r := extractLoop destination rootDir w (i + 1) rest
                (s1 :: s2 :: s3 :: s4 :: r.1, r.2)

/-- The function `ExtractZIP(zipFile, destination)`: the calls of its loop, in order, and the
result. -/
def ExtractZIP (zipFile : TempFile) (destination : String) (w : FsWorld) :
    List Step × Except String Unit :=
  match w.openReader zipFile with
  | .error e => ([], .error ("failed to open ZIP: " ++ e))
  | .ok files =>
    match w.mkdirDestination destination with
    | .error e => ([], .error ("failed to create destination directory: " ++ e))
    | .ok _ => extractLoop destination (rootDirOf files) w 0 files

/-- The paths the calls of a run create or write: the directories of `os.MkdirAll` and the
files of `os.OpenFile` and `io.Copy`. -/
def writtenPaths : List Step → List String
  | [] => []
  | ⟨_, _, .mkdirAll p _⟩ :: ss => p :: writtenPaths ss
  | ⟨_, _, .openFile p _⟩ :: ss => p :: writtenPaths ss
  | ⟨_, _, .copy p _⟩ :: ss => p :: writtenPaths ss
  | ⟨_, _, .openMember _⟩ :: ss => writtenPaths ss

/-! ## Sync orchestrator (`internal/sync/service.go`, `cmd/git-download/main.go`) -/

/-- Outcomes of everything one repository's sync asks of the outside world: the
`os.MkdirAll(repo.Destination, 0755)` of `Service.SyncRepository`, the calls of `DownloadZIP`,
the calls of `ExtractZIP`, `time.Now()`, and `SaveMetadata` of the registry afterwards. -/
structure World where
  mkdirAll : String → Except String Unit
  net : NetWorld
  fs : FsWorld
  now : Time
  save : SyncMetadata → Except String Unit

/-- What one repository's sync did: `*repo` after the call, the network calls, the calls of the
extraction loop, and the returned error. -/
structure SyncResult where
  repo : RepositoryMetadata
  net : List NetOp
  fs : List Step
  err : Except String Unit

/-- What a run over the registry did: the registry in memory at the end, the names of the
entries a sync was started for, the names reported with `Error syncing`, and the registries
handed to `SaveMetadata`, each list in order. -/
structure Log where
  meta : SyncMetadata
  attempted : List String
  failed : List String
  saved : List SyncMetadata
  deriving DecidableEq, Repr

namespace Service

/-- The method `(s *Service) SyncRepository(repo)`. -/
def SyncRepository (repo : RepositoryMetadata) (w : World) : SyncResult :=
  match w.mkdirAll repo.Destination with
  | .error e => ⟨repo, [], [], .error ("failed to create destination directory: " ++ e)⟩
  | .ok _ =>
    let d := DownloadZIP repo.URL repo.Branch repo.RefType w.net
    match d.2 with
    | .error e => ⟨repo, d.1, [], .error ("failed to download repository: " ++ e)⟩
    | .ok zipFile =>
      let x := ExtractZIP zipFile repo.Destination w.fs
      match x.2 with
      | .error e => ⟨repo, d.1, x.1, .error ("failed to extract repository: " ++ e)⟩
      | .ok _ => ⟨{ repo with LastSync := w.now }, d.1, x.1, .ok ()⟩

/-- The loop `for i := range meta.Repositories` of `SyncAll`, with `k` iterations left from
index `i`: `SyncRepository(&meta.Repositories[i])` writes into the slice; after a success the
entry is passed to `meta.AddRepository` and the registry is saved (a failed save only prints a
warning); after a failure the loop continues. -/
def syncAllLoop (w : Nat → World) : Nat → Nat → SyncMetadata → Log
  | 0, _, meta => ⟨meta, [], [], []⟩
  | k + 1, i, meta =>
    match meta.Repositories[i]? with
    | none => ⟨meta, [], [], []⟩
    | some repo =>
      let r := SyncRepository repo (w i)
      match r.err with
      | .error _ =>
        let rest := syncAllLoop w k (i + 1) meta
        ⟨rest.meta, repo.Name :: rest.attempted, repo.Name :: rest.failed, rest.saved⟩
      | .ok _ =>
        let meta1 : SyncMetadata := ⟨meta.Repositories.set i r.repo⟩
        let meta2 := meta1.AddRepository r.repo
        let rest := syncAllLoop w k (i + 1) meta2
        ⟨rest.meta, repo.Name :: rest.attempted, rest.failed, meta2 :: rest.saved⟩

/-- The method `(s *Service) SyncAll()`, from the outcome of `LoadMetadata`: `.ok log` stands
for the return of `nil`. -/
def SyncAll (loaded : Except String SyncMetadata) (w : Nat → World) : Except String Log :=
  match loaded with
  | .error e => .error ("failed to load metadata: " ++ e)
  | .ok meta => .ok (syncAllLoop w meta.Repositories.length 0 meta)

/-- The method `(s *Service) AddRepository(repo)`, from the outcome of `LoadMetadata` and the
outcome of `SaveMetadata`: `.ok meta` is the registry written. -/
def AddRepository (repo : RepositoryMetadata) (loaded : Except String SyncMetadata)
    (save : SyncMetadata → Except String Unit) : Except String SyncMetadata :=
  match loaded with
  | .error e => .error ("failed to load metadata: " ++ e)
  | .ok meta =>
    let repo1 := if repo.Branch = "" then { repo with Branch := "main" } else repo
    let repo2 := if repo1.RefType = "" then { repo1 with RefType := "branch" } else repo1
    let repo3 :=
      if repo2.Destination = "" then { repo2 with Destination := Join "." repo2.Name } else repo2
    let meta1 := meta.AddRepository repo3
    match save meta1 with
    | .error e => .error ("failed to save metadata: " ++ e)
    | .ok _ => .ok meta1

end Service

/-- What `syncRepository` of `main.go` did: the registry in memory after the call, the
registries handed to `SaveMetadata`, and the sync itself. -/
structure CmdSync where
  meta : SyncMetadata
  saved : List SyncMetadata
  result : SyncResult

/-- The function `syncRepository(repo, meta)` of `main.go`. -/
def syncRepository (repo : RepositoryMetadata) (meta : SyncMetadata) (w : World) : CmdSync :=
  let d := DownloadZIP repo.URL repo.Branch repo.RefType w.net
  match d.2 with
  | .error e => ⟨meta, [], ⟨repo, d.1, [], .error ("failed to download repository: " ++ e)⟩⟩
  | .ok zipFile =>
    let x := ExtractZIP zipFile repo.Destination w.fs
    match x.2 with
    | .error e => ⟨meta, [], ⟨repo, d.1, x.1, .error ("failed to extract repository: " ++ e)⟩⟩
    | .ok _ =>
      let repo1 := { repo with LastSync := w.now }
      let meta1 := meta.AddRepository repo1
      match w.save meta1 with
      | .error e => ⟨meta1, [meta1], ⟨repo1, d.1, x.1, .error ("failed to save metadata: " ++ e)⟩⟩
      | .ok _ => ⟨meta1, [meta1], ⟨repo1, d.1, x.1, .ok ()⟩⟩

/-- The loop `for _, repo := range meta.Repositories` of `syncCmd`, with `k` iterations left
from index `i`: `repo` is a copy of the entry at `i`; an error of `syncRepository` is printed
and the loop continues. -/
def syncCmdLoop (w : Nat → World) : Nat → Nat → SyncMetadata → Log
  | 0, _, meta => ⟨meta, [], [], []⟩
  | k + 1, i, meta =>
    match meta.Repositories[i]? with
    | none => ⟨meta, [], [], []⟩
    | some repo =>
      let r := syncRepository repo meta (w i)
      let rest := syncCmdLoop w k (i + 1) r.meta
      match r.result.err with
      | .error _ =>
        ⟨rest.meta, repo.Name :: rest.attempted, repo.Name :: rest.failed, r.saved ++ rest.saved⟩
      | .ok _ => ⟨rest.meta, repo.Name :: rest.attempted, rest.failed, r.saved ++ rest.saved⟩

/-- The command `syncCmd` for the value of its flag `name`, from the outcome of
`LoadMetadata`: `.ok log` stands for the return of `nil`. -/
def syncCmd (name : String) (loaded : Except String SyncMetadata) (w : Nat → World) :
    Except String Log :=
  match loaded with
  | .error e => .error ("failed to load metadata: " ++ e)
  | .ok meta =>
    if name ≠ "" then
      match meta.GetRepository name with
      | none => .error ("repository '" ++ name ++ "' not found")
      | some repo =>
        let r := syncRepository repo meta (w 0)
        match r.result.err with
        | .error e => .error e
        | .ok _ => .ok ⟨r.meta, [repo.Name], [], r.saved⟩
    else .ok (syncCmdLoop w meta.Repositories.length 0 meta)

/-- The flags of `initCmd` as given on the command line; `none` is a flag left out. -/
structure InitFlags where
  url : Option String
  ref : Option String
  refType : Option String
  destination : Option String
  name : Option String

/-- What `cmd.Flags().GetString` returns: the value given, or the default registered in
`init()`. -/
def GetString (given : Option String) (dflt : String) : String :=
  given.getD dflt

/-- The command `initCmd`, from the outcome of `LoadMetadata` and the outcome of
`SaveMetadata`: `.ok meta` is the registry written; the defaults are those registered in
`init()`. -/
def initCmd (flags : InitFlags) (loaded : Except String SyncMetadata)
    (save : SyncMetadata → Except String Unit) : Except String SyncMetadata :=
  let url := GetString flags.url ""
  let ref := GetString flags.ref "main"
  let refType := GetString flags.refType "branch"
  let dest := GetString flags.destination ""
  let name := GetString flags.name ""
  if url = "" then .error "URL is required"
  else if refType ≠ "" ∧ refType ≠ "branch" ∧ refType ≠ "tag" then
    .error "ref-type must be either 'branch' or 'tag'"
  else
    let name := if name = "" then Base url else name
    match loaded with
    | .error e => .error ("failed to load metadata: " ++ e)
    | .ok meta =>
      let repo : RepositoryMetadata := ⟨name, url, ref, refType, 0, dest⟩
      let meta1 := meta.AddRepository repo
      match save meta1 with
      | .error e => .error ("failed to save metadata: " ++ e)
      | .ok _ => .ok meta1

/-- Whether `os.MkdirAll(repo.Destination, 0755)` of `Service.SyncRepository` succeeds. -/
def destinationOk (repo : RepositoryMetadata) (w : World) : Bool :=
  match w.mkdirAll repo.Destination with
  | .error _ => false
  | .ok _ => true

/-- Whether the fetch (`DownloadZIP`) and the install (`ExtractZIP` of the downloaded file into
the destination) of an entry both succeed. -/
def fetchInstallOk (repo : RepositoryMetadata) (w : World) : Bool :=
  match (DownloadZIP repo.URL repo.Branch repo.RefType w.net).2 with
  | .error _ => false
  | .ok zipFile =>
    match (ExtractZIP zipFile repo.Destination w.fs).2 with
    | .error _ => false
    | .ok _ => true

/-! ## Example values -/

/-- A registry entry that was never synced. -/
def exAlpha : RepositoryMetadata :=
  ⟨"alpha", "https://github.com/owner/alpha", "main", "branch", 0, "./alpha"⟩

/-- A registry entry tracking a tag, synced at instant 5. -/
def exBeta : RepositoryMetadata :=
  ⟨"beta", "https://github.com/owner/beta", "v1.2.0", "tag", 5, "./beta"⟩

/-- A registry entry synced at instant 7. -/
def exGamma : RepositoryMetadata :=
  ⟨"gamma", "https://github.com/owner/gamma", "dev", "branch", 7, "./vendor/gamma"⟩

/-- The entry `beta` moved to another tag and destination. -/
def exBetaNew : RepositoryMetadata :=
  ⟨"beta", "https://github.com/owner/beta", "v2.0.0", "tag", 0, "./beta2"⟩

/-- An entry under a name the example registry does not have. -/
def exDelta : RepositoryMetadata :=
  ⟨"delta", "https://github.com/owner/delta", "main", "branch", 0, "./delta"⟩

/-- A registry of three entries. -/
def exRegistry : SyncMetadata := ⟨[exAlpha, exBeta, exGamma]⟩

/-- A network in which everything succeeds: the temporary file is created, every address
answers with status 200, and the body is copied. -/
def exNet : NetWorld :=
  ⟨.ok "/tmp/repo-1.zip", fun _ => .ok ⟨200, "PK"⟩, fun _ => .ok ()⟩

/-- The command line `init --url https://github.com/owner/proj`. -/
def exInitOnlyURL : InitFlags :=
  ⟨some "https://github.com/owner/proj", none, none, none, none⟩

/-- The command line `init --url https://github.com/owner/proj --ref-type commit`. -/
def exInitBadKind : InitFlags :=
  ⟨some "https://github.com/owner/proj", none, some "commit", none, none⟩

/-- A `SaveMetadata` that succeeds. -/
def exSave : SyncMetadata → Except String Unit := fun _ => .ok ()

/-- The downloaded archive handed to `ExtractZIP` in the examples. -/
def exZip : TempFile := ⟨"/tmp/repo-1.zip", "PK"⟩

/-- An archive of a repository `proj` at branch `main`: the wrapper directory, a directory and
a file. -/
def exArchive : List File :=
  [⟨"proj-main/", true, 0o755, ""⟩, ⟨"proj-main/docs/", true, 0o755, ""⟩,
    ⟨"proj-main/README.md", false, 0o644, "hello"⟩]

/-- A filesystem on which creating the directory `out/docs` fails and everything else
succeeds. -/
def exFsDirFails : FsWorld :=
  ⟨fun _ => .ok exArchive, fun _ => .ok (),
    fun _ op => if op = .mkdirAll "out/docs" 0o755 then .error "not a directory" else .ok ()⟩

/-- A filesystem on which creating the directory `out` as the parent of a file fails and
everything else succeeds. -/
def exFsParentFails : FsWorld :=
  ⟨fun _ => .ok exArchive, fun _ => .ok (),
    fun _ op => if op = .mkdirAll "out" 0o755 then .error "read-only file system" else .ok ()⟩

/-- An archive whose second entry climbs out of the wrapper directory with `..` elements. -/
def exArchiveDotDot : List File :=
  [⟨"proj-main/", true, 0o755, ""⟩, ⟨"proj-main/../../etc/cron.d/job", false, 0o644, "* * * * *"⟩]

/-- An archive of a repository that has a directory named like the wrapper directory. -/
def exArchiveNested : List File :=
  [⟨"proj-main/", true, 0o755, ""⟩, ⟨"proj-main/proj-main/main.go", false, 0o644, "package main"⟩]

/-- A filesystem holding the given archive on which every call succeeds. -/
def exFsOk (files : List File) : FsWorld :=
  ⟨fun _ => .ok files, fun _ => .ok (), fun _ _ => .ok ()⟩

/-- A world in which the sync of a repository succeeds at instant `t`: directories are
created, the archive is downloaded and installed, the registry is saved. -/
def exWorldOk (t : Time) : World :=
  ⟨fun _ => .ok (), exNet, exFsOk exArchive, t, exSave⟩

/-- A world in which the fetch fails: the remote answers with status 404. -/
def exWorldFetchFails : World :=
  ⟨fun _ => .ok (), ⟨.ok "/tmp/repo-2.zip", fun _ => .ok ⟨404, "Not Found"⟩, fun _ => .ok ()⟩,
    exFsOk exArchive, 101, exSave⟩

/-- The worlds of a run over three entries in which the second fetch fails; the syncs happen
at the instants 100, 101 and 102. -/
def exWorlds : Nat → World := fun i =>
  if i = 1 then exWorldFetchFails else exWorldOk (100 + i)

/-! ## Registry lemmas -/

theorem firstIndex_cons (name : String) (r : RepositoryMetadata) (rs : List RepositoryMetadata) :
    firstIndex name (r :: rs) = if r.Name = name then 0 else firstIndex name rs + 1 := by
  unfold firstIndex
  rw [List.findIdx_cons]
  by_cases h : r.Name = name <;> simp [h]

theorem firstIndex_lt_of_mem (name : String) (rs : List RepositoryMetadata)
    (h : ∃ r ∈ rs, r.Name = name) : firstIndex name rs < rs.length := by
  unfold firstIndex
  apply List.findIdx_lt_length_of_exists
  obtain ⟨r, hr, hn⟩ := h
  exact ⟨r, hr, by simp [hn]⟩

theorem firstIndex_spec (name : String) (rs : List RepositoryMetadata)
    (h : ∃ r ∈ rs, r.Name = name) :
    ∃ old, rs[firstIndex name rs]? = some old ∧ old.Name = name := by
  have hlt := firstIndex_lt_of_mem name rs h
  have hget : rs[firstIndex name rs]? = some rs[firstIndex name rs] :=
    List.getElem?_eq_getElem hlt
  refine ⟨rs[firstIndex name rs], hget, ?_⟩
  unfold firstIndex at hget
  have hp := List.findIdx_of_getElem?_eq_some hget
  simpa [firstIndex] using hp

theorem firstIndex_min (name : String) (rs : List RepositoryMetadata) (j : Nat)
    (r : RepositoryMetadata) (hj : j < firstIndex name rs) (hr : rs[j]? = some r) :
    r.Name ≠ name := by
  have hlen : j < rs.length := by
    rcases Nat.lt_or_ge j rs.length with h | h
    · exact h
    · rw [List.getElem?_eq_none h] at hr
      cases hr
  unfold firstIndex at hj
  have hp := List.not_of_lt_findIdx hj
  rw [List.getElem?_eq_getElem hlen] at hr
  cases hr
  simpa using hp

theorem addLoop_get (repo : RepositoryMetadata) (rs : List RepositoryMetadata) :
    SyncMetadata.getLoop repo.Name (SyncMetadata.addLoop repo rs) = some repo := by
  induction rs with
  | nil => simp [SyncMetadata.addLoop, SyncMetadata.getLoop]
  | cons r rs ih =>
    by_cases h : r.Name = repo.Name
    · simp [SyncMetadata.addLoop, SyncMetadata.getLoop, h]
    · simp [SyncMetadata.addLoop, SyncMetadata.getLoop, h, ih]

theorem addLoop_of_mem (repo : RepositoryMetadata) (rs : List RepositoryMetadata)
    (h : ∃ r ∈ rs, r.Name = repo.Name) :
    SyncMetadata.addLoop repo rs = rs.set (firstIndex repo.Name rs) repo := by
  induction rs with
  | nil => simp at h
  | cons r rs ih =>
    rw [firstIndex_cons]
    by_cases hr : r.Name = repo.Name
    · simp [SyncMetadata.addLoop, hr]
    · have h2 : ∃ x ∈ rs, x.Name = repo.Name := by
        obtain ⟨x, hx, hn⟩ := h
        rcases List.mem_cons.mp hx with rfl | hx
        · exact absurd hn hr
        · exact ⟨x, hx, hn⟩
      simp [SyncMetadata.addLoop, hr, ih h2]

theorem addLoop_of_not_mem (repo : RepositoryMetadata) (rs : List RepositoryMetadata)
    (h : ¬ ∃ r ∈ rs, r.Name = repo.Name) :
    SyncMetadata.addLoop repo rs = rs ++ [repo] := by
  induction rs with
  | nil => simp [SyncMetadata.addLoop]
  | cons r rs ih =>
    have hr : ¬ r.Name = repo.Name := fun e => h ⟨r, List.mem_cons_self _ _, e⟩
    have h2 : ¬ ∃ x ∈ rs, x.Name = repo.Name :=
      fun ⟨x, hx, hn⟩ => h ⟨x, List.mem_cons_of_mem _ hx, hn⟩
    simp [SyncMetadata.addLoop, hr, ih h2]

theorem removeLoop_of_mem (name : String) (rs : List RepositoryMetadata)
    (h : ∃ r ∈ rs, r.Name = name) :
    SyncMetadata.removeLoop name rs = (rs.eraseIdx (firstIndex name rs), true) := by
  induction rs with
  | nil => simp at h
  | cons r rs ih =>
    rw [firstIndex_cons]
    by_cases hr : r.Name = name
    · simp [SyncMetadata.removeLoop, hr]
    · have h2 : ∃ x ∈ rs, x.Name = name := by
        obtain ⟨x, hx, hn⟩ := h
        rcases List.mem_cons.mp hx with rfl | hx
        · exact absurd hn hr
        · exact ⟨x, hx, hn⟩
      simp [SyncMetadata.removeLoop, hr, ih h2]

theorem removeLoop_of_not_mem (name : String) (rs : List RepositoryMetadata)
    (h : ¬ ∃ r ∈ rs, r.Name = name) :
    SyncMetadata.removeLoop name rs = (rs, false) := by
  induction rs with
  | nil => simp [SyncMetadata.removeLoop]
  | cons r rs ih =>
    have hr : ¬ r.Name = name := fun e => h ⟨r, List.mem_cons_self _ _, e⟩
    have h2 : ¬ ∃ x ∈ rs, x.Name = name :=
      fun ⟨x, hx, hn⟩ => h ⟨x, List.mem_cons_of_mem _ hx, hn⟩
    simp [SyncMetadata.removeLoop, hr, ih h2]

/-! ## Registry theorems -/

/-- C3: after `AddRepository e`, `GetRepository e.Name` returns `e`; when an entry named
`e.Name` existed, the length is unchanged, `e` sits at the position of the first entry with
that name and every other index holds what it held; otherwise the registry is the old one
with `e` appended at the end. -/
theorem C3_upsert_then_find (sm : SyncMetadata) (e : RepositoryMetadata) :
    (sm.AddRepository e).GetRepository e.Name = some e ∧
    (hasName sm e.Name →
      (sm.AddRepository e).Repositories.length = sm.Repositories.length ∧
      (∃ old, sm.Repositories[firstIndex e.Name sm.Repositories]? = some old ∧
        old.Name = e.Name) ∧
      (∀ j r, j < firstIndex e.Name sm.Repositories → sm.Repositories[j]? = some r →
        r.Name ≠ e.Name) ∧
      (sm.AddRepository e).Repositories[firstIndex e.Name sm.Repositories]? = some e ∧
      (∀ j, j ≠ firstIndex e.Name sm.Repositories →
        (sm.AddRepository e).Repositories[j]? = sm.Repositories[j]?)) ∧
    (¬ hasName sm e.Name → (sm.AddRepository e).Repositories = sm.Repositories ++ [e]) := by
  refine ⟨addLoop_get e sm.Repositories, ?_, ?_⟩
  · intro h
    have hlt := firstIndex_lt_of_mem e.Name sm.Repositories h
    have hset := addLoop_of_mem e sm.Repositories h
    refine ⟨?_, ?_, ?_, ?_, ?_⟩
    · simp [SyncMetadata.AddRepository, hset]
    · exact firstIndex_spec e.Name sm.Repositories h
    · exact fun j r hj hr => firstIndex_min e.Name sm.Repositories j r hj hr
    · simp [SyncMetadata.AddRepository, hset, hlt]
    · intro j hj
      simp only [SyncMetadata.AddRepository, hset]
      exact List.getElem?_set_ne (Ne.symm hj)
  · intro h
    exact addLoop_of_not_mem e sm.Repositories h

/-- An instance of C3 with the name present (`beta`, replaced in the middle of three entries)
and one with the name absent (`delta`, appended). -/
theorem C3_upsert_then_find_witness :
    hasName exRegistry exBetaNew.Name ∧
    (exRegistry.AddRepository exBetaNew).Repositories.length = 3 ∧
    (exRegistry.AddRepository exBetaNew).Repositories[1]? = some exBetaNew ∧
    ¬ hasName exRegistry exDelta.Name ∧
    (exRegistry.AddRepository exDelta).Repositories = [exAlpha, exBeta, exGamma, exDelta] :=
  have hp : hasName exRegistry exBetaNew.Name := ⟨exBeta, by decide, by decide⟩
  have hn : ¬ hasName exRegistry exDelta.Name := by
    rintro ⟨r, hr, hname⟩
    revert hname
    revert r
    decide
  ⟨hp, ((C3_upsert_then_find exRegistry exBetaNew).2.1 hp).1,
    ((C3_upsert_then_find exRegistry exBetaNew).2.1 hp).2.2.2.1, hn,
    (C3_upsert_then_find exRegistry exDelta).2.2 hn⟩

/-- C4: when some entry has the name, `RemoveRepository` returns `true` and the registry
becomes the old list without its first entry of that name (everything before it followed by
everything after it, one entry shorter); when none has it, the result is `false` and the
registry is unchanged. -/
theorem C4_remove (sm : SyncMetadata) (name : String) :
    (hasName sm name →
      (sm.RemoveRepository name).2 = true ∧
      (sm.RemoveRepository name).1.Repositories =
        sm.Repositories.take (firstIndex name sm.Repositories) ++
          sm.Repositories.drop (firstIndex name sm.Repositories + 1) ∧
      (∃ old, sm.Repositories[firstIndex name sm.Repositories]? = some old ∧ old.Name = name) ∧
      (∀ j r, j < firstIndex name sm.Repositories → sm.Repositories[j]? = some r →
        r.Name ≠ name) ∧
      (sm.RemoveRepository name).1.Repositories.length + 1 = sm.Repositories.length) ∧
    (¬ hasName sm name → sm.RemoveRepository name = (sm, false)) := by
  constructor
  · intro h
    have hlt := firstIndex_lt_of_mem name sm.Repositories h
    have hrem := removeLoop_of_mem name sm.Repositories h
    refine ⟨?_, ?_, ?_, ?_, ?_⟩
    · simp [SyncMetadata.RemoveRepository, hrem]
    · simp [SyncMetadata.RemoveRepository, hrem, List.eraseIdx_eq_take_drop_succ]
    · exact firstIndex_spec name sm.Repositories h
    · exact fun j r hj hr => firstIndex_min name sm.Repositories j r hj hr
    · simp only [SyncMetadata.RemoveRepository, hrem]
      rw [List.length_eraseIdx_of_lt hlt]
      omega
  · intro h
    simp [SyncMetadata.RemoveRepository, removeLoop_of_not_mem name sm.Repositories h]

/-- An instance of C4 with the name present (`beta`, removed from the middle of three entries)
and one with the name absent (`delta`). -/
theorem C4_remove_witness :
    hasName exRegistry "beta" ∧
    (exRegistry.RemoveRepository "beta").2 = true ∧
    (exRegistry.RemoveRepository "beta").1.Repositories.length + 1 = 3 ∧
    ¬ hasName exRegistry "delta" ∧
    exRegistry.RemoveRepository "delta" = (exRegistry, false) :=
  have hp : hasName exRegistry "beta" := ⟨exBeta, by decide, by decide⟩
  have hn : ¬ hasName exRegistry "delta" := by
    rintro ⟨r, hr, hname⟩
    revert hname
    revert r
    decide
  ⟨hp, ((C4_remove exRegistry "beta").1 hp).1, ((C4_remove exRegistry "beta").1 hp).2.2.2.2, hn,
    (C4_remove exRegistry "delta").2 hn⟩

/-! ## Persistence theorems -/

/-- What the repository's own code contributes to the round trip: when `SaveMetadata`
succeeds, `LoadMetadata` of the same file name is `json.Unmarshal` of what
`json.MarshalIndent` produced for the registry, and the disk is otherwise as before; whether
that gives the registry back is a property of `encoding/json`. -/
theorem LoadMetadata_after_SaveMetadata (c : Codec) (d : Disk) (sm : SyncMetadata)
    (filename : String) (hsave : (SaveMetadata c d sm filename).2 = .ok ()) :
    ∃ data, c.MarshalIndent sm = .ok data ∧
      LoadMetadata c (SaveMetadata c d sm filename).1 filename = c.Unmarshal data ∧
      ∀ other, other ≠ filename →
        (SaveMetadata c d sm filename).1.files other = d.files other := by
  unfold SaveMetadata at hsave ⊢
  cases hm : c.MarshalIndent sm with
  | error err => rw [hm] at hsave; cases hsave
  | ok data =>
    rw [hm] at hsave
    dsimp only at hsave ⊢
    cases hd : d.mkdirAll (Dir filename) with
    | error err => rw [hd] at hsave; cases hsave
    | ok u =>
      rw [hd] at hsave
      dsimp only at hsave ⊢
      cases hw : d.writeFile filename data with
      | error err => rw [hw] at hsave; cases hsave
      | ok u2 =>
        refine ⟨data, rfl, ?_, ?_⟩
        · simp [LoadMetadata]
        · intro other hne
          simp [hne]

/-- A registry without a persisted document loads as the empty registry, not as an error. -/
theorem LoadMetadata_notExist (c : Codec) (d : Disk) (filename : String)
    (h : d.files filename = .notExist) : LoadMetadata c d filename = .ok ⟨[]⟩ := by
  simp [LoadMetadata, h]

/-! ## Fetcher theorems -/

theorem Sprintf_tags (url ref : String) :
    Sprintf "%s/archive/refs/tags/%s.zip" [url, ref] = url ++ "/archive/refs/tags/" ++ ref ++ ".zip" := by
  apply String.ext
  simp [Sprintf, sprintfChars, String.data_append]

theorem Sprintf_heads (url ref : String) :
    Sprintf "%s/archive/refs/heads/%s.zip" [url, ref] =
      url ++ "/archive/refs/heads/" ++ ref ++ ".zip" := by
  apply String.ext
  simp [Sprintf, sprintfChars, String.data_append]

theorem requested_DownloadZIP (url ref refType : String) (w : NetWorld) :
    requested (DownloadZIP url ref refType w).1 =
      match w.createTemp with
      | .error _ => []
      | .ok _ => [zipURL url ref refType] := by
  unfold DownloadZIP
  cases w.createTemp with
  | error e => simp [requested]
  | ok tmp =>
    cases hg : w.httpGet (zipURL url ref refType) with
    | error e => simp [requested, hg]
    | ok resp =>
      by_cases hs : resp.StatusCode = 200
      · cases hc : w.copy resp.Body <;> simp [requested, hs, hg, hc]
      · simp [requested, hs, hg]

/-- C1: the only address `DownloadZIP` requests is `location/archive/refs/tags/reference.zip`
for the kind `tag` and `location/archive/refs/heads/reference.zip` for the kind `branch` and
for the empty kind; it requests exactly that address once the temporary file exists. -/
theorem C1_archive_address (url ref : String) (w : NetWorld) :
    (∀ a ∈ requested (DownloadZIP url ref "tag" w).1,
      a = url ++ "/archive/refs/tags/" ++ ref ++ ".zip") ∧
    (∀ a ∈ requested (DownloadZIP url ref "branch" w).1,
      a = url ++ "/archive/refs/heads/" ++ ref ++ ".zip") ∧
    (∀ a ∈ requested (DownloadZIP url ref "" w).1,
      a = url ++ "/archive/refs/heads/" ++ ref ++ ".zip") ∧
    (∀ tmp, w.createTemp = .ok tmp →
      requested (DownloadZIP url ref "tag" w).1 = [url ++ "/archive/refs/tags/" ++ ref ++ ".zip"] ∧
      requested (DownloadZIP url ref "branch" w).1 =
        [url ++ "/archive/refs/heads/" ++ ref ++ ".zip"] ∧
      requested (DownloadZIP url ref "" w).1 =
        [url ++ "/archive/refs/heads/" ++ ref ++ ".zip"]) := by
  have ht : zipURL url ref "tag" = url ++ "/archive/refs/tags/" ++ ref ++ ".zip" := by
    simp [zipURL, Sprintf_tags]
  have hb : zipURL url ref "branch" = url ++ "/archive/refs/heads/" ++ ref ++ ".zip" := by
    have : ¬ ("branch" = "tag") := by decide
    simp [zipURL, Sprintf_heads, this]
  have he : zipURL url ref "" = url ++ "/archive/refs/heads/" ++ ref ++ ".zip" := by
    have : ¬ ("" = "tag") := by decide
    simp [zipURL, Sprintf_heads, this]
  simp only [requested_DownloadZIP, ht, hb, he]
  refine ⟨?_, ?_, ?_, ?_⟩
  · cases w.createTemp <;> simp
  · cases w.createTemp <;> simp
  · cases w.createTemp <;> simp
  · intro tmp h
    simp [h]

/-- An instance of C1: the addresses requested for `https://github.com/owner/proj` at
`v1.2.0`, on a network where the temporary file is created. -/
theorem C1_archive_address_witness :
    exNet.createTemp = .ok "/tmp/repo-1.zip" ∧
    requested (DownloadZIP "https://github.com/owner/proj" "v1.2.0" "tag" exNet).1 =
      ["https://github.com/owner/proj" ++ "/archive/refs/tags/" ++ "v1.2.0" ++ ".zip"] ∧
    requested (DownloadZIP "https://github.com/owner/proj" "v1.2.0" "branch" exNet).1 =
      ["https://github.com/owner/proj" ++ "/archive/refs/heads/" ++ "v1.2.0" ++ ".zip"] :=
  have h := (C1_archive_address "https://github.com/owner/proj" "v1.2.0" exNet).2.2.2
    "/tmp/repo-1.zip" rfl
  ⟨rfl, h.1, h.2.1⟩

/-- C7, the claim as stated fails: for the kind `commit`, which is neither `branch` nor `tag`,
`DownloadZIP` issues the retrieval of the `heads` address and returns the downloaded file. -/
theorem C7_counterexample :
    "commit" ≠ "branch" ∧ "commit" ≠ "tag" ∧
    DownloadZIP "https://github.com/owner/proj" "main" "commit" exNet =
      ([.createTemp, .httpGet "https://github.com/owner/proj/archive/refs/heads/main.zip",
          .copy "/tmp/repo-1.zip" "PK"],
        .ok ⟨"/tmp/repo-1.zip", "PK"⟩) := by
  decide

/-- C7 as amended: `DownloadZIP` rejects no reference kind, every kind other than `tag` is
fetched exactly as the kind `branch` is, with the `heads` address requested once the temporary
file exists; a kind other than the empty one, `branch` and `tag` is rejected only by `initCmd`,
which returns its error whatever the registry holds and without writing it. -/
theorem C7_kind_rejected_at_init_only :
    (∀ (url ref refType : String) (w : NetWorld), refType ≠ "tag" →
      DownloadZIP url ref refType w = DownloadZIP url ref "branch" w ∧
      ∀ tmp, w.createTemp = .ok tmp →
        requested (DownloadZIP url ref refType w).1 =
          [url ++ "/archive/refs/heads/" ++ ref ++ ".zip"]) ∧
    (∀ (flags : InitFlags) (loaded : Except String SyncMetadata)
        (save : SyncMetadata → Except String Unit),
      GetString flags.url "" ≠ "" →
      GetString flags.refType "branch" ≠ "" →
      GetString flags.refType "branch" ≠ "branch" →
      GetString flags.refType "branch" ≠ "tag" →
      initCmd flags loaded save = .error "ref-type must be either 'branch' or 'tag'") := by
  constructor
  · intro url ref refType w hk
    have hz : zipURL url ref refType = zipURL url ref "branch" := by
      have : ¬ ("branch" = "tag") := by decide
      simp [zipURL, hk, this]
    refine ⟨by simp [DownloadZIP, hz], ?_⟩
    intro tmp h
    have hb : ¬ ("branch" = "tag") := by decide
    rw [requested_DownloadZIP, h, hz]
    simp [zipURL, hb, Sprintf_heads]
  · intro flags loaded save hu h1 h2 h3
    simp [initCmd, hu, h1, h2, h3]

/-- An instance of the amended C7 at the kind `commit`: fetched as a branch by `DownloadZIP`,
rejected by `initCmd`. -/
theorem C7_kind_rejected_at_init_only_witness :
    "commit" ≠ "tag" ∧
    DownloadZIP "https://github.com/owner/proj" "main" "commit" exNet =
      DownloadZIP "https://github.com/owner/proj" "main" "branch" exNet ∧
    initCmd exInitBadKind (.ok exRegistry) exSave =
      .error "ref-type must be either 'branch' or 'tag'" :=
  ⟨by decide,
    (C7_kind_rejected_at_init_only.1 "https://github.com/owner/proj" "main" "commit" exNet
      (by decide)).1,
    C7_kind_rejected_at_init_only.2 exInitBadKind (.ok exRegistry) exSave (by decide) (by decide)
      (by decide) (by decide)⟩

/-! ## Installer theorems -/

theorem splitChars_append_sep (sep : Char) (p rest : List Char) (h : sep ∉ p) :
    splitChars sep (p ++ sep :: rest) = p :: splitChars sep rest := by
  induction p with
  | nil => simp [splitChars]
  | cons c p ih =>
    have hc : ¬ c = sep := fun e => h (by simp [e])
    have hp : sep ∉ p := fun e => h (List.mem_cons_of_mem _ e)
    simp [splitChars, hc, ih hp]

theorem wrapper_prefix_data (name : String) (h : HasPrefix name "proj-main/" = true) :
    ∃ rest : List Char, name.data = "proj-main".data ++ '/' :: rest := by
  unfold HasPrefix at h
  rw [List.isPrefixOf_iff_prefix] at h
  obtain ⟨rest, hrest⟩ := h
  refine ⟨rest, ?_⟩
  rw [← hrest]
  rfl

theorem wrapper_split (name : String) (rest : List Char)
    (h : name.data = "proj-main".data ++ '/' :: rest) :
    Split name '/' = "proj-main" :: Split ⟨rest⟩ '/' := by
  unfold Split
  rw [h, splitChars_append_sep '/' "proj-main".data rest (by decide)]
  rfl

theorem wrapper_trim (name : String) (rest : List Char)
    (h : name.data = "proj-main".data ++ '/' :: rest) :
    TrimPrefix name ("proj-main" ++ "/") = ⟨rest⟩ ∧ name = "proj-main/" ++ ⟨rest⟩ := by
  have hroot : "proj-main" ++ "/" = "proj-main/" := by decide
  have hdata : "proj-main/".data = "proj-main".data ++ ['/'] := by decide
  have hpre : HasPrefix name "proj-main/" = true := by
    unfold HasPrefix
    rw [List.isPrefixOf_iff_prefix, h, hdata]
    exact ⟨rest, by simp⟩
  constructor
  · rw [hroot]
    unfold TrimPrefix
    rw [if_pos hpre, h, hdata]
    congr 1
  · apply String.ext
    rw [String.data_append, h, hdata]
    simp

theorem extractLoop_steps (destination rootDir : String) (w : FsWorld) (files : List File) :
    ∀ (i : Nat) (s : Step), s ∈ (extractLoop destination rootDir w i files).1 →
      ∃ f, files[s.index - i]? = some f ∧ i ≤ s.index ∧ s.relPath = relPathOf rootDir f ∧
        s.relPath ≠ "" := by
  induction files with
  | nil => intro i s hs; simp [extractLoop] at hs
  | cons file rest ih =>
    intro i s hs
    have later : s ∈ (extractLoop destination rootDir w (i + 1) rest).1 →
        ∃ f, (file :: rest)[s.index - i]? = some f ∧ i ≤ s.index ∧
          s.relPath = relPathOf rootDir f ∧ s.relPath ≠ "" := by
      intro h
      obtain ⟨f, hf, hle, hrel, hne⟩ := ih (i + 1) s h
      refine ⟨f, ?_, by omega, hrel, hne⟩
      have : s.index - i = (s.index - (i + 1)) + 1 := by omega
      rw [this, List.getElem?_cons_succ]
      exact hf
    have here : ∀ op, relPathOf rootDir file ≠ "" →
        s = ⟨i, relPathOf rootDir file, op⟩ →
        ∃ f, (file :: rest)[s.index - i]? = some f ∧ i ≤ s.index ∧
          s.relPath = relPathOf rootDir f ∧ s.relPath ≠ "" := by
      intro op hne hs
      subst hs
      exact ⟨file, by simp, Nat.le_refl _, rfl, hne⟩
    unfold extractLoop at hs
    by_cases hrel : relPathOf rootDir file = ""
    · rw [if_pos hrel] at hs
      exact later hs
    · rw [if_neg hrel] at hs
      by_cases hdir : file.IsDir = true
      · rw [if_pos hdir] at hs
        rcases List.mem_cons.mp hs with h | h
        · exact here _ hrel h
        · exact later h
      · rw [if_neg hdir] at hs
        dsimp only at hs
        split at hs
        · simp only [List.mem_singleton] at hs
          exact here _ hrel hs
        · split at hs
          · simp only [List.mem_cons, List.mem_singleton, List.not_mem_nil, or_false] at hs
            rcases hs with h | h <;> exact here _ hrel h
          · split at hs
            · simp only [List.mem_cons, List.mem_singleton, List.not_mem_nil, or_false] at hs
              rcases hs with h | h | h <;> exact here _ hrel h
            · split at hs
              · simp only [List.mem_cons, List.mem_singleton, List.not_mem_nil, or_false] at hs
                rcases hs with h | h | h | h <;> exact here _ hrel h
              · simp only [List.mem_cons] at hs
                rcases hs with h | h | h | h | h
                · exact here _ hrel h
                · exact here _ hrel h
                · exact here _ hrel h
                · exact here _ hrel h
                · exact later h

theorem rootDirOf_wrapper (files : List File) (f0 : File) (rest : List File)
    (hfiles : files = f0 :: rest) (h : HasPrefix f0.Name "proj-main/" = true) :
    rootDirOf files = "proj-main" := by
  obtain ⟨tl, htl⟩ := wrapper_prefix_data f0.Name h
  subst hfiles
  simp [rootDirOf, wrapper_split f0.Name tl htl]

/-- C2, the claim as stated fails: every entry name of the archive starts with `proj-main/`,
and the relative path computed for `proj-main/proj-main/main.go` is `proj-main/main.go`, which
has a segment `proj-main`. -/
theorem C2_counterexample :
    (∀ f ∈ exArchiveNested, HasPrefix f.Name "proj-main/" = true) ∧
    (⟨1, "proj-main/main.go", .openFile "out/proj-main/main.go" 0o644⟩ : Step) ∈
      (ExtractZIP exZip "out" (exFsOk exArchiveNested)).1 ∧
    "proj-main" ∈ Split "proj-main/main.go" '/' := by
  decide

/-- C2 as amended: for an archive whose entry names all start with `proj-main/`, the relative
path of every call `ExtractZIP` issues is not empty and is the entry name without its leading
`proj-main/`, so its segments are the segments of the name after the first: one top-level
wrapper segment is stripped, and the relative path has a segment `proj-main` exactly when the
name has one after its first segment. -/
theorem C2_wrapper_stripped_once (zipFile : TempFile) (destination : String) (w : FsWorld)
    (files : List File) (hopen : w.openReader zipFile = .ok files)
    (hpre : ∀ f ∈ files, HasPrefix f.Name "proj-main/" = true) :
    ∀ s ∈ (ExtractZIP zipFile destination w).1,
      ∃ f, files[s.index]? = some f ∧
        s.relPath ≠ "" ∧
        f.Name = "proj-main/" ++ s.relPath ∧
        Split f.Name '/' = "proj-main" :: Split s.relPath '/' ∧
        ("proj-main" ∈ Split s.relPath '/' ↔ "proj-main" ∈ (Split f.Name '/').tail) := by
  intro s hs
  unfold ExtractZIP at hs
  rw [hopen] at hs
  dsimp only at hs
  cases hmk : w.mkdirDestination destination with
  | error e => rw [hmk] at hs; simp at hs
  | ok u =>
    rw [hmk] at hs
    dsimp only at hs
    cases hfiles : files with
    | nil => rw [hfiles] at hs; simp [extractLoop] at hs
    | cons f0 rest =>
      have hroot : rootDirOf files = "proj-main" :=
        rootDirOf_wrapper files f0 rest hfiles (hpre f0 (by simp [hfiles]))
      rw [hroot] at hs
      obtain ⟨f, hf, _, hrel, hne⟩ := extractLoop_steps destination "proj-main" w files 0 s hs
      rw [Nat.sub_zero] at hf
      have hmem : f ∈ files := List.getElem?_mem hf
      obtain ⟨tl, htl⟩ := wrapper_prefix_data f.Name (hpre f hmem)
      have htrim := wrapper_trim f.Name tl htl
      have hsplit := wrapper_split f.Name tl htl
      have hrp : s.relPath = ⟨tl⟩ := by rw [hrel]; exact htrim.1
      rw [← hfiles]
      refine ⟨f, hf, hne, ?_, ?_, ?_⟩
      · rw [hrp]; exact htrim.2
      · rw [hrp]; exact hsplit
      · rw [hrp, hsplit]; rfl

/-- An instance of the amended C2: the call that creates `out/README.md` for the third entry
of the example archive. -/
theorem C2_wrapper_stripped_once_witness :
    (exFsOk exArchive).openReader exZip = .ok exArchive ∧
    (∀ f ∈ exArchive, HasPrefix f.Name "proj-main/" = true) ∧
    ∃ f, exArchive[2]? = some f ∧
      "README.md" ≠ "" ∧
      f.Name = "proj-main/" ++ "README.md" ∧
      Split f.Name '/' = "proj-main" :: Split "README.md" '/' ∧
      ("proj-main" ∈ Split "README.md" '/' ↔ "proj-main" ∈ (Split f.Name '/').tail) :=
  ⟨rfl, by decide,
    C2_wrapper_stripped_once exZip "out" (exFsOk exArchive) exArchive rfl (by decide)
      ⟨2, "README.md", .openFile "out/README.md" 0o644⟩ (by decide)⟩

theorem extractLoop_checked (destination rootDir : String) (w : FsWorld) (files : List File) :
    ∀ (i : Nat),
      ((extractLoop destination rootDir w i files).2 = .ok () →
        ∀ s ∈ (extractLoop destination rootDir w i files).1, ∀ f,
          files[s.index - i]? = some f → f.IsDir = false → w.run s.index s.op = .ok ()) ∧
      (∀ e, (extractLoop destination rootDir w i files).2 = .error e →
        ∃ before s e0, (extractLoop destination rootDir w i files).1 = before ++ [s] ∧
          w.run s.index s.op = .error e0) := by
  induction files with
  | nil =>
    intro i
    constructor
    · intro _ s hs
      simp [extractLoop] at hs
    · intro e he
      simp [extractLoop] at he
  | cons file rest ih =>
    intro i
    have hidx : ∀ s ∈ (extractLoop destination rootDir w (i + 1) rest).1, ∀ f,
        (file :: rest)[s.index - i]? = some f → rest[s.index - (i + 1)]? = some f := by
      intro s hs f hf
      obtain ⟨_, _, hle, _, _⟩ := extractLoop_steps destination rootDir w rest (i + 1) s hs
      have : s.index - i = (s.index - (i + 1)) + 1 := by omega
      rw [this, List.getElem?_cons_succ] at hf
      exact hf
    unfold extractLoop
    by_cases hrel : relPathOf rootDir file = ""
    · rw [if_pos hrel]
      constructor
      · intro hok s hs f hf hd
        exact (ih (i + 1)).1 hok s hs f (hidx s hs f hf) hd
      · exact (ih (i + 1)).2
    · rw [if_neg hrel]
      by_cases hdir : file.IsDir = true
      · rw [if_pos hdir]
        dsimp only
        constructor
        · intro hok s hs f hf hd
          rcases List.mem_cons.mp hs with h | h
          · subst h
            simp only [Nat.sub_self, List.getElem?_cons_zero, Option.some.injEq] at hf
            subst hf
            rw [hdir] at hd
            cases hd
          · exact (ih (i + 1)).1 hok s h f (hidx s h f hf) hd
        · intro e he
          obtain ⟨before, s, e0, htr, hfail⟩ := (ih (i + 1)).2 e he
          exact ⟨_ :: before, s, e0, by rw [htr]; rfl, hfail⟩
      · rw [if_neg hdir]
        dsimp only
        cases h1 : w.run i (.mkdirAll (Dir (Join destination (relPathOf rootDir file))) 0o755) with
        | error e1 =>
          dsimp only
          exact ⟨fun hok => (by cases hok), fun e _ => ⟨[], _, e1, rfl, h1⟩⟩
        | ok u1 =>
          dsimp only
          cases h2 : w.run i (.openFile (Join destination (relPathOf rootDir file)) file.Mode) with
          | error e2 =>
            dsimp only
            exact ⟨fun hok => (by cases hok), fun e _ => ⟨[_], _, e2, rfl, h2⟩⟩
          | ok u2 =>
            dsimp only
            cases h3 : w.run i (.openMember file.Name) with
            | error e3 =>
              dsimp only
              exact ⟨fun hok => (by cases hok), fun e _ => ⟨[_, _], _, e3, rfl, h3⟩⟩
            | ok u3 =>
              dsimp only
              cases h4 : w.run i (.copy (Join destination (relPathOf rootDir file)) file.Data) with
              | error e4 =>
                dsimp only
                exact ⟨fun hok => (by cases hok), fun e _ => ⟨[_, _, _], _, e4, rfl, h4⟩⟩
              | ok u4 =>
                dsimp only
                constructor
                · intro hok s hs f hf hd
                  simp only [List.mem_cons] at hs
                  rcases hs with h | h | h | h | h
                  · subst h; exact h1
                  · subst h; exact h2
                  · subst h; exact h3
                  · subst h; exact h4
                  · exact (ih (i + 1)).1 hok s h f (hidx s h f hf) hd
                · intro e he
                  obtain ⟨before, s, e0, htr, hfail⟩ := (ih (i + 1)).2 e he
                  exact ⟨_ :: _ :: _ :: _ :: before, s, e0, by rw [htr]; rfl, hfail⟩

/-- The part of the failure contract `ExtractZIP` keeps: when it returns success, every call
it issued for an entry that is not a directory marker succeeded; when it returns an error
after the destination directory was created, the last call it issued is one that failed, so
nothing was processed after the failure. -/
theorem ExtractZIP_file_steps_checked (zipFile : TempFile) (destination : String) (w : FsWorld)
    (files : List File) (hopen : w.openReader zipFile = .ok files) :
    ((ExtractZIP zipFile destination w).2 = .ok () →
      ∀ s ∈ (ExtractZIP zipFile destination w).1, ∀ f,
        files[s.index]? = some f → f.IsDir = false → w.run s.index s.op = .ok ()) ∧
    (∀ e, (ExtractZIP zipFile destination w).2 = .error e →
      (∃ e0, w.mkdirDestination destination = .error e0) ∨
      ∃ before s e0, (ExtractZIP zipFile destination w).1 = before ++ [s] ∧
        w.run s.index s.op = .error e0) := by
  unfold ExtractZIP
  rw [hopen]
  dsimp only
  cases hmk : w.mkdirDestination destination with
  | error e0 =>
    dsimp only
    exact ⟨fun hok => (by cases hok), fun e _ => Or.inl ⟨e0, rfl⟩⟩
  | ok u =>
    dsimp only
    have h := extractLoop_checked destination (rootDirOf files) w files 0
    exact ⟨fun hok s hs f hf hd => h.1 hok s hs f (by rw [Nat.sub_zero]; exact hf) hd,
      fun e he => Or.inr (h.2 e he)⟩

/-- C9, the code at the failing input: creating the directory of the directory-marker entry
`proj-main/docs/` fails, yet `ExtractZIP` goes on to the next entry, writes `out/README.md` and
returns success; the same failure on the parent directory of a file aborts the run. -/
theorem C9_directory_failure_ignored :
    exFsDirFails.run 1 (.mkdirAll "out/docs" 0o755) = .error "not a directory" ∧
    ExtractZIP exZip "out" exFsDirFails =
      ([⟨1, "docs/", .mkdirAll "out/docs" 0o755⟩,
        ⟨2, "README.md", .mkdirAll "out" 0o755⟩,
        ⟨2, "README.md", .openFile "out/README.md" 0o644⟩,
        ⟨2, "README.md", .openMember "proj-main/README.md"⟩,
        ⟨2, "README.md", .copy "out/README.md" "hello"⟩], .ok ()) ∧
    ExtractZIP exZip "out" exFsParentFails =
      ([⟨1, "docs/", .mkdirAll "out/docs" 0o755⟩,
        ⟨2, "README.md", .mkdirAll "out" 0o755⟩],
        .error "failed to create directory: read-only file system") := by
  decide

/-- C10, the code at the failing input: for the destination `/srv/mirror` and the entry name
`proj-main/../../etc/cron.d/job`, `ExtractZIP` creates and writes `/etc/cron.d/job`, which is
not under the destination. -/
theorem C10_entry_escapes_destination :
    writtenPaths (ExtractZIP exZip "/srv/mirror" (exFsOk exArchiveDotDot)).1 =
      ["/etc/cron.d", "/etc/cron.d/job", "/etc/cron.d/job"] ∧
    (ExtractZIP exZip "/srv/mirror" (exFsOk exArchiveDotDot)).2 = .ok () ∧
    isWithin "/srv/mirror" "/etc/cron.d/job" = false := by
  decide

/-! ## Orchestrator theorems -/

theorem addLoop_eq_set (r1 : RepositoryMetadata) (l : List RepositoryMetadata) :
    ∀ (i : Nat) (r : RepositoryMetadata), (l.map (fun x => x.Name)).Nodup → l[i]? = some r →
      r.Name = r1.Name → SyncMetadata.addLoop r1 l = l.set i r1 := by
  induction l with
  | nil => intro i r _ h; simp at h
  | cons x xs ih =>
    intro i r hnd hget hname
    rw [List.map_cons, List.nodup_cons] at hnd
    cases i with
    | zero =>
      simp only [List.getElem?_cons_zero, Option.some.injEq] at hget
      subst hget
      simp [SyncMetadata.addLoop, hname]
    | succ j =>
      rw [List.getElem?_cons_succ] at hget
      have hx : ¬ x.Name = r1.Name := by
        intro e
        apply hnd.1
        rw [e, ← hname]
        exact List.mem_map_of_mem _ (List.getElem?_mem hget)
      simp [SyncMetadata.addLoop, hx, ih j r hnd.2 hget hname]

theorem map_name_set (l : List RepositoryMetadata) (i : Nat) (r r1 : RepositoryMetadata)
    (hget : l[i]? = some r) (hname : r.Name = r1.Name) :
    (l.set i r1).map (fun x => x.Name) = l.map (fun x => x.Name) := by
  induction l generalizing i with
  | nil => simp
  | cons x xs ih =>
    cases i with
    | zero =>
      simp only [List.getElem?_cons_zero, Option.some.injEq] at hget
      subst hget
      simp [hname]
    | succ j =>
      rw [List.getElem?_cons_succ] at hget
      simp [ih j hget]

theorem set_same (l : List RepositoryMetadata) (i : Nat) (r : RepositoryMetadata)
    (hget : l[i]? = some r) : l.set i r = l := by
  induction l generalizing i with
  | nil => simp
  | cons x xs ih =>
    cases i with
    | zero =>
      simp only [List.getElem?_cons_zero, Option.some.injEq] at hget
      simp [hget]
    | succ j =>
      rw [List.getElem?_cons_succ] at hget
      simp [ih j hget]

theorem drop_names (l : List RepositoryMetadata) (i : Nat) (repo r1 : RepositoryMetadata)
    (hget : l[i]? = some repo) :
    (l.drop i).map (fun x => x.Name) =
      repo.Name :: ((l.set i r1).drop (i + 1)).map (fun x => x.Name) := by
  induction l generalizing i with
  | nil => simp at hget
  | cons x xs ih =>
    cases i with
    | zero =>
      simp only [List.getElem?_cons_zero, Option.some.injEq] at hget
      simp [hget]
    | succ j =>
      rw [List.getElem?_cons_succ] at hget
      simpa using ih j hget

theorem upsert_after_set (l : List RepositoryMetadata) (i : Nat) (r r1 : RepositoryMetadata)
    (hnd : (l.map (fun x => x.Name)).Nodup) (hget : l[i]? = some r) (hname : r.Name = r1.Name) :
    SyncMetadata.AddRepository ⟨l.set i r1⟩ r1 = ⟨l.set i r1⟩ := by
  have hlt : i < l.length := by
    rcases Nat.lt_or_ge i l.length with h | h
    · exact h
    · rw [List.getElem?_eq_none h] at hget
      cases hget
  have hnd2 : ((l.set i r1).map (fun x => x.Name)).Nodup := by
    rw [map_name_set l i r r1 hget hname]
    exact hnd
  have hget2 : (l.set i r1)[i]? = some r1 := List.getElem?_set_self hlt
  unfold SyncMetadata.AddRepository
  rw [addLoop_eq_set r1 (l.set i r1) i r1 hnd2 hget2 rfl, List.set_set]

theorem upsert_entry (l : List RepositoryMetadata) (i : Nat) (r r1 : RepositoryMetadata)
    (hnd : (l.map (fun x => x.Name)).Nodup) (hget : l[i]? = some r) (hname : r.Name = r1.Name) :
    SyncMetadata.AddRepository ⟨l⟩ r1 = ⟨l.set i r1⟩ := by
  unfold SyncMetadata.AddRepository
  rw [addLoop_eq_set r1 l i r hnd hget hname]

theorem SyncRepository_ok (repo : RepositoryMetadata) (w : World)
    (h : (destinationOk repo w && fetchInstallOk repo w) = true) :
    (Service.SyncRepository repo w).err = .ok () ∧
      (Service.SyncRepository repo w).repo = { repo with LastSync := w.now } := by
  rw [Bool.and_eq_true] at h
  obtain ⟨hd, hf⟩ := h
  unfold destinationOk at hd
  unfold fetchInstallOk at hf
  unfold Service.SyncRepository
  cases hm : w.mkdirAll repo.Destination with
  | error e => rw [hm] at hd; cases hd
  | ok u =>
    dsimp only
    cases hdl : (DownloadZIP repo.URL repo.Branch repo.RefType w.net).2 with
    | error e => rw [hdl] at hf; cases hf
    | ok z =>
      rw [hdl] at hf
      dsimp only at hf ⊢
      cases hx : (ExtractZIP z repo.Destination w.fs).2 with
      | error e => rw [hx] at hf; cases hf
      | ok u2 => exact ⟨rfl, rfl⟩

theorem SyncRepository_error (repo : RepositoryMetadata) (w : World)
    (h : (destinationOk repo w && fetchInstallOk repo w) = false) :
    ∃ e, (Service.SyncRepository repo w).err = .error e := by
  unfold destinationOk fetchInstallOk at h
  unfold Service.SyncRepository
  cases hm : w.mkdirAll repo.Destination with
  | error e => exact ⟨_, rfl⟩
  | ok u =>
    rw [hm] at h
    dsimp only at h ⊢
    cases hdl : (DownloadZIP repo.URL repo.Branch repo.RefType w.net).2 with
    | error e => exact ⟨_, rfl⟩
    | ok z =>
      rw [hdl] at h
      dsimp only at h ⊢
      cases hx : (ExtractZIP z repo.Destination w.fs).2 with
      | error e => exact ⟨_, rfl⟩
      | ok u2 => rw [hx] at h; simp at h

/-- The state the loops reach from index `i`: entries from `i` on whose sync succeeds carry
their sync time, every other entry is as it was. -/
theorem loop_pointwise (ok : RepositoryMetadata → Nat → Bool) (now : Nat → Time)
    (l res : List RepositoryMetadata) (i : Nat) (repo : RepositoryMetadata)
    (hget : l[i]? = some repo)
    (hres : ∀ j r, (l.set i (if ok repo i = true then { repo with LastSync := now i } else repo))[j]? =
        some r →
      res[j]? = some (if i + 1 ≤ j ∧ ok r j = true then { r with LastSync := now j } else r)) :
    ∀ j r, l[j]? = some r →
      res[j]? = some (if i ≤ j ∧ ok r j = true then { r with LastSync := now j } else r) := by
  intro j r hj
  have hlt : i < l.length := by
    rcases Nat.lt_or_ge i l.length with h | h
    · exact h
    · rw [List.getElem?_eq_none h] at hget
      cases hget
  by_cases hji : j = i
  · subst hji
    rw [hget] at hj
    cases hj
    have := hres j _ (List.getElem?_set_self hlt)
    rw [this]
    by_cases hok : ok repo j = true
    · simp [hok]
    · simp [hok]
  · have hne : i ≠ j := fun e => hji e.symm
    have := hres j r (by rw [List.getElem?_set_ne hne]; exact hj)
    rw [this]
    have hiff : (i + 1 ≤ j) ↔ (i ≤ j) := by omega
    simp only [hiff]

theorem syncAllLoop_spec (w : Nat → World) :
    ∀ (k i : Nat) (meta : SyncMetadata), i + k = meta.Repositories.length →
      (meta.Repositories.map (fun x => x.Name)).Nodup →
      (Service.syncAllLoop w k i meta).attempted =
        (meta.Repositories.drop i).map (fun x => x.Name) ∧
      (Service.syncAllLoop w k i meta).meta.Repositories.length = meta.Repositories.length ∧
      ∀ j r, meta.Repositories[j]? = some r →
        (Service.syncAllLoop w k i meta).meta.Repositories[j]? =
          some (if i ≤ j ∧ (destinationOk r (w j) && fetchInstallOk r (w j)) = true
            then { r with LastSync := (w j).now } else r) := by
  intro k
  induction k with
  | zero =>
    intro i meta hlen _
    refine ⟨?_, rfl, ?_⟩
    · simp [Service.syncAllLoop, ← hlen]
    · intro j r hj
      have hlt : j < meta.Repositories.length := by
        rcases Nat.lt_or_ge j meta.Repositories.length with h | h
        · exact h
        · rw [List.getElem?_eq_none h] at hj
          cases hj
      have : ¬ i ≤ j := by omega
      simp [Service.syncAllLoop, hj, this]
  | succ k ih =>
    intro i meta hlen hnd
    have hi : i < meta.Repositories.length := by omega
    obtain ⟨repo, hget⟩ : ∃ repo, meta.Repositories[i]? = some repo :=
      ⟨_, List.getElem?_eq_getElem hi⟩
    unfold Service.syncAllLoop
    rw [hget]
    dsimp only
    cases hok : (destinationOk repo (w i) && fetchInstallOk repo (w i)) with
    | false =>
      obtain ⟨e, he⟩ := SyncRepository_error repo (w i) hok
      rw [he]
      dsimp only
      obtain ⟨h1, h2, h3⟩ := ih (i + 1) meta (by omega) hnd
      refine ⟨?_, h2, ?_⟩
      · rw [h1, drop_names meta.Repositories i repo repo hget,
          set_same meta.Repositories i repo hget]
      · apply loop_pointwise (fun r j => destinationOk r (w j) && fetchInstallOk r (w j))
          (fun j => (w j).now) meta.Repositories _ i repo hget
        intro j r hj
        simp only [hok, Bool.false_eq_true, if_false] at hj
        rw [set_same meta.Repositories i repo hget] at hj
        exact h3 j r hj
    | true =>
      obtain ⟨he, hr⟩ := SyncRepository_ok repo (w i) hok
      rw [he, hr]
      dsimp only
      rw [upsert_after_set meta.Repositories i repo { repo with LastSync := (w i).now } hnd hget
        rfl]
      have hnd2 : ((meta.Repositories.set i { repo with LastSync := (w i).now }).map
          (fun x => x.Name)).Nodup := by
        rw [map_name_set meta.Repositories i repo { repo with LastSync := (w i).now } hget rfl]
        exact hnd
      obtain ⟨h1, h2, h3⟩ := ih (i + 1)
        ⟨meta.Repositories.set i { repo with LastSync := (w i).now }⟩
        (by simp only [List.length_set]; omega) hnd2
      refine ⟨?_, ?_, ?_⟩
      · rw [h1, drop_names meta.Repositories i repo { repo with LastSync := (w i).now } hget]
      · rw [h2, List.length_set]
      · apply loop_pointwise (fun r j => destinationOk r (w j) && fetchInstallOk r (w j))
          (fun j => (w j).now) meta.Repositories _ i repo hget
        intro j r hj
        simp only [hok, if_true] at hj
        exact h3 j r hj

theorem syncRepository_meta (repo : RepositoryMetadata) (meta : SyncMetadata) (w : World) :
    (syncRepository repo meta w).meta =
      if fetchInstallOk repo w = true then meta.AddRepository { repo with LastSync := w.now }
      else meta := by
  unfold syncRepository fetchInstallOk
  cases hdl : (DownloadZIP repo.URL repo.Branch repo.RefType w.net).2 with
  | error e => simp [hdl]
  | ok z =>
    cases hx : (ExtractZIP z repo.Destination w.fs).2 with
    | error e => simp [hdl, hx]
    | ok u =>
      cases hs : w.save (meta.AddRepository { repo with LastSync := w.now }) <;>
        simp [hdl, hx, hs]

theorem syncCmdLoop_succ (w : Nat → World) (k i : Nat) (meta : SyncMetadata)
    (repo : RepositoryMetadata) (hget : meta.Repositories[i]? = some repo) :
    (syncCmdLoop w (k + 1) i meta).meta =
        (syncCmdLoop w k (i + 1) (syncRepository repo meta (w i)).meta).meta ∧
      (syncCmdLoop w (k + 1) i meta).attempted =
        repo.Name :: (syncCmdLoop w k (i + 1) (syncRepository repo meta (w i)).meta).attempted := by
  simp only [syncCmdLoop, hget]
  cases (syncRepository repo meta (w i)).result.err <;> exact ⟨rfl, rfl⟩

theorem syncCmdLoop_spec (w : Nat → World) :
    ∀ (k i : Nat) (meta : SyncMetadata), i + k = meta.Repositories.length →
      (meta.Repositories.map (fun x => x.Name)).Nodup →
      (syncCmdLoop w k i meta).attempted = (meta.Repositories.drop i).map (fun x => x.Name) ∧
      (syncCmdLoop w k i meta).meta.Repositories.length = meta.Repositories.length ∧
      ∀ j r, meta.Repositories[j]? = some r →
        (syncCmdLoop w k i meta).meta.Repositories[j]? =
          some (if i ≤ j ∧ fetchInstallOk r (w j) = true
            then { r with LastSync := (w j).now } else r) := by
  intro k
  induction k with
  | zero =>
    intro i meta hlen _
    refine ⟨?_, rfl, ?_⟩
    · simp [syncCmdLoop, ← hlen]
    · intro j r hj
      have hlt : j < meta.Repositories.length := by
        rcases Nat.lt_or_ge j meta.Repositories.length with h | h
        · exact h
        · rw [List.getElem?_eq_none h] at hj
          cases hj
      have : ¬ i ≤ j := by omega
      simp [syncCmdLoop, hj, this]
  | succ k ih =>
    intro i meta hlen hnd
    have hi : i < meta.Repositories.length := by omega
    obtain ⟨repo, hget⟩ : ∃ repo, meta.Repositories[i]? = some repo :=
      ⟨_, List.getElem?_eq_getElem hi⟩
    obtain ⟨hm, ha⟩ := syncCmdLoop_succ w k i meta repo hget
    rw [hm, ha, syncRepository_meta]
    cases hok : fetchInstallOk repo (w i) with
    | false =>
      simp only [Bool.false_eq_true, if_false]
      obtain ⟨h1, h2, h3⟩ := ih (i + 1) meta (by omega) hnd
      refine ⟨?_, h2, ?_⟩
      · rw [h1, drop_names meta.Repositories i repo repo hget,
          set_same meta.Repositories i repo hget]
      · apply loop_pointwise (fun r j => fetchInstallOk r (w j))
          (fun j => (w j).now) meta.Repositories _ i repo hget
        intro j r hj
        simp only [hok, Bool.false_eq_true, if_false] at hj
        rw [set_same meta.Repositories i repo hget] at hj
        exact h3 j r hj
    | true =>
      simp only [if_true]
      rw [upsert_entry meta.Repositories i repo { repo with LastSync := (w i).now } hnd hget rfl]
      have hnd2 : ((meta.Repositories.set i { repo with LastSync := (w i).now }).map
          (fun x => x.Name)).Nodup := by
        rw [map_name_set meta.Repositories i repo { repo with LastSync := (w i).now } hget rfl]
        exact hnd
      obtain ⟨h1, h2, h3⟩ := ih (i + 1)
        ⟨meta.Repositories.set i { repo with LastSync := (w i).now }⟩
        (by simp only [List.length_set]; omega) hnd2
      refine ⟨?_, ?_, ?_⟩
      · rw [h1, drop_names meta.Repositories i repo { repo with LastSync := (w i).now } hget]
      · rw [h2, List.length_set]
      · apply loop_pointwise (fun r j => fetchInstallOk r (w j))
          (fun j => (w j).now) meta.Repositories _ i repo hget
        intro j r hj
        simp only [hok, if_true] at hj
        exact h3 j r hj

/-- C6: over a registry with unique names and for every assignment of outcomes, both sync-all
loops (`Service.SyncAll` and `syncCmd` without a name) start a sync for every entry in stored
order, return success, and leave a registry of the same length in which, index by index, an
entry whose fetch and install succeeded carries its sync time and any other entry is
unchanged; in `Service.SyncRepository` the fetch is reached only once the destination
directory was created. -/
theorem C6_syncAll_continues (meta : SyncMetadata) (w : Nat → World)
    (hnd : (meta.Repositories.map (fun x => x.Name)).Nodup) :
    (∃ log, Service.SyncAll (.ok meta) w = .ok log ∧
      log.attempted = meta.Repositories.map (fun x => x.Name) ∧
      log.meta.Repositories.length = meta.Repositories.length ∧
      ∀ j r, meta.Repositories[j]? = some r →
        log.meta.Repositories[j]? =
          some (if (destinationOk r (w j) && fetchInstallOk r (w j)) = true
            then { r with LastSync := (w j).now } else r)) ∧
    (∃ log, syncCmd "" (.ok meta) w = .ok log ∧
      log.attempted = meta.Repositories.map (fun x => x.Name) ∧
      log.meta.Repositories.length = meta.Repositories.length ∧
      ∀ j r, meta.Repositories[j]? = some r →
        log.meta.Repositories[j]? =
          some (if fetchInstallOk r (w j) = true
            then { r with LastSync := (w j).now } else r)) := by
  constructor
  · obtain ⟨h1, h2, h3⟩ :=
      syncAllLoop_spec w meta.Repositories.length 0 meta (Nat.zero_add _) hnd
    refine ⟨_, rfl, ?_, h2, ?_⟩
    · rw [h1, List.drop_zero]
    · intro j r hj
      rw [h3 j r hj]
      simp
  · obtain ⟨h1, h2, h3⟩ :=
      syncCmdLoop_spec w meta.Repositories.length 0 meta (Nat.zero_add _) hnd
    refine ⟨_, by simp [syncCmd], ?_, h2, ?_⟩
    · rw [h1, List.drop_zero]
    · intro j r hj
      rw [h3 j r hj]
      simp

/-- An instance of C6, the run over three entries in which the second fetch fails: entries one
and three carry their sync times, entry two is unchanged and is the one failure reported, and
the registry was saved after each of the two successes. -/
theorem C6_syncAll_continues_witness :
    (exRegistry.Repositories.map (fun x => x.Name)).Nodup ∧
    (∃ log, Service.SyncAll (.ok exRegistry) exWorlds = .ok log ∧
      log.attempted = exRegistry.Repositories.map (fun x => x.Name) ∧
      log.meta.Repositories.length = exRegistry.Repositories.length ∧
      ∀ j r, exRegistry.Repositories[j]? = some r →
        log.meta.Repositories[j]? =
          some (if (destinationOk r (exWorlds j) && fetchInstallOk r (exWorlds j)) = true
            then { r with LastSync := (exWorlds j).now } else r)) ∧
    Service.SyncAll (.ok exRegistry) exWorlds =
      .ok ⟨⟨[{ exAlpha with LastSync := 100 }, exBeta, { exGamma with LastSync := 102 }]⟩,
        ["alpha", "beta", "gamma"], ["beta"],
        [⟨[{ exAlpha with LastSync := 100 }, exBeta, exGamma]⟩,
          ⟨[{ exAlpha with LastSync := 100 }, exBeta, { exGamma with LastSync := 102 }]⟩]⟩ ∧
    syncCmd "" (.ok exRegistry) exWorlds = Service.SyncAll (.ok exRegistry) exWorlds :=
  ⟨by decide, (C6_syncAll_continues exRegistry exWorlds (by decide)).1, by decide, by decide⟩

/-! ## Registration theorems (`initCmd`) -/

/-- C8, the code at the failing input: `init` with only the location
`https://github.com/owner/proj` stores the name `proj`, the reference `main` and the kind
`branch`, but an empty destination; `Service.AddRepository`, given the same entry, stores the
destination `filepath.Join(".", "proj")`. -/
theorem C8_init_only_location :
    initCmd exInitOnlyURL (.ok ⟨[]⟩) exSave =
      .ok ⟨[⟨"proj", "https://github.com/owner/proj", "main", "branch", 0, ""⟩]⟩ ∧
    Service.AddRepository ⟨"proj", "https://github.com/owner/proj", "", "", 0, ""⟩ (.ok ⟨[]⟩)
        exSave =
      .ok ⟨[⟨"proj", "https://github.com/owner/proj", "main", "branch", 0, "proj"⟩]⟩ := by
  decide

end GitDownload
